import Mathlib

/-
Verification of the computer-vision core of the smart document scanner
(src/smart-scanner.js, class SmartDocumentScanner).

Modelling conventions.
JavaScript numbers are modelled by exact rationals (ℚ) or integers; the
decimal literals of the source (0.299, 0.587, 0.114, 0.1, 0.8) are taken
at their exact decimal value.  The few places where binary floating point
could differ from exact arithmetic are comparisons of half-integer
polygon areas against w·h·0.1 and w·h·0.8 (float error < 1e-10, area
granularity 1/2, so the comparisons agree) and the luma weights (error
< 1e-13 per pixel, far below the rounding granularity of a byte store at
any non-tie value used here).
Pixel buffers are `List ℕ` of byte values; a store into a
Uint8ClampedArray is modelled by `clampU8` (ECMAScript ToUint8Clamp:
clamp to [0,255], round half to even).  `Math.round` is `jsRound`
(⌊x + 1/2⌋).  Reads `a[i]` that are in bounds on well-formed input are
modelled with `List.getD _ _ 0`.
`Math.sqrt (gx²+gy²) > 50` is modelled by the equivalent exact test
`2500 < gx²+gy²` (both sides nonnegative, squaring is monotone).
-/

namespace Scanner

/-- ECMAScript ToUint8Clamp, the conversion applied when a JS number is
stored into a Uint8ClampedArray: clamp to [0, 255], round half to even. -/
def clampU8 (q : ℚ) : ℕ :=
  if q ≤ 0 then 0
  else if 255 ≤ q then 255
  else
    (if q - ⌊q⌋ < 1/2 then ⌊q⌋
     else if 1/2 < q - ⌊q⌋ then ⌊q⌋ + 1
     else if ⌊q⌋ % 2 = 0 then ⌊q⌋ else ⌊q⌋ + 1).toNat

/-- JavaScript Math.round: round half toward positive infinity. -/
def jsRound (q : ℚ) : ℤ := ⌊q + 1/2⌋

theorem clampU8_natCast (n : ℕ) (h : n ≤ 255) : clampU8 (n : ℚ) = n := by
  unfold clampU8
  rcases Nat.eq_zero_or_pos n with h0 | h0
  · subst h0; norm_num
  · have h1 : ¬ ((n : ℚ) ≤ 0) := not_le.mpr (by exact_mod_cast h0)
    rw [if_neg h1]
    by_cases h2 : (255 : ℚ) ≤ (n : ℚ)
    · have : (255 : ℕ) ≤ n := by exact_mod_cast h2
      have : n = 255 := le_antisymm h this
      rw [if_pos h2, this]
    · rw [if_neg h2]
      have hf : ⌊(n : ℚ)⌋ = (n : ℤ) := by exact_mod_cast Int.floor_natCast n
      rw [hf]
      have : (n : ℚ) - (n : ℤ) = 0 := by push_cast; ring
      rw [this]
      norm_num

theorem jsRound_intCast (z : ℤ) : jsRound (z : ℚ) = z := by
  unfold jsRound
  rw [add_comm, Int.floor_add_int]
  norm_num

/-- The exact luma formula of convertToGrayscale:
0.299·R + 0.587·G + 0.114·B. -/
def lumaQ (r g b : ℕ) : ℚ := r * (299/1000) + g * (587/1000) + b * (114/1000)

/-- In-bounds pixel read `data[b*width+a]`, as used by the convolution
stages of the source. -/
def gRead (data : List ℕ) (w : ℕ) (a b : ℕ) : ℕ := data.getD (b * w + a) 0

/-- convertToGrayscale (src/smart-scanner.js:153-163): for each pixel p
(the source iterates i = 4p over the RGBA data), store
data[4p]·0.299 + data[4p+1]·0.587 + data[4p+2]·0.114 into byte p of a
fresh w·h buffer; the alpha byte data[4p+3] is never read. -/
def convertToGrayscale (data : List ℕ) (w h : ℕ) : List ℕ :=
  (List.range (w * h)).map fun p =>
    clampU8 (lumaQ (data.getD (4 * p) 0) (data.getD (4 * p + 1) 0) (data.getD (4 * p + 2) 0))

/-- gaussianBlur (src/smart-scanner.js:165-187): fresh zero-initialised
output; at every interior pixel (1 ≤ x ≤ w-2, 1 ≤ y ≤ h-2) the 3×3
kernel [1,2,1,2,4,2,1,2,1] is applied and sum/16 is stored; the border
ring keeps the Uint8ClampedArray initial value 0. -/
def gaussianBlur (data : List ℕ) (w h : ℕ) : List ℕ :=
  (List.range (w * h)).map fun idx =>
    let y := idx / w
    let x := idx % w
    if 1 ≤ x ∧ x + 1 < w ∧ 1 ≤ y ∧ y + 1 < h then
      clampU8 (((gRead data w (x-1) (y-1) + 2 * gRead data w x (y-1) + gRead data w (x+1) (y-1)
        + 2 * gRead data w (x-1) y + 4 * gRead data w x y + 2 * gRead data w (x+1) y
        + gRead data w (x-1) (y+1) + 2 * gRead data w x (y+1) + gRead data w (x+1) (y+1) : ℕ) : ℚ) / 16)
    else 0

/-- sobelEdgeDetection (src/smart-scanner.js:189-214): at every interior
pixel, gx and gy are the Sobel responses and the output is 255 when
sqrt(gx²+gy²) > 50, modelled by the equivalent 2500 < gx²+gy²; the
border ring keeps the initial value 0. -/
def sobelEdgeDetection (data : List ℕ) (w h : ℕ) : List ℕ :=
  (List.range (w * h)).map fun idx =>
    let y := idx / w
    let x := idx % w
    if 1 ≤ x ∧ x + 1 < w ∧ 1 ≤ y ∧ y + 1 < h then
      let gx : ℤ := -(gRead data w (x-1) (y-1) : ℤ) + gRead data w (x+1) (y-1)
        - 2 * gRead data w (x-1) y + 2 * gRead data w (x+1) y
        - gRead data w (x-1) (y+1) + gRead data w (x+1) (y+1)
      let gy : ℤ := -(gRead data w (x-1) (y-1) : ℤ) - 2 * gRead data w x (y-1) - gRead data w (x+1) (y-1)
        + gRead data w (x-1) (y+1) + 2 * gRead data w x (y+1) + gRead data w (x+1) (y+1)
      if 2500 < gx^2 + gy^2 then 255 else 0
    else 0

theorem getD_rangeMap (n : ℕ) (f : ℕ → ℕ) (i : ℕ) :
    ((List.range n).map f).getD i 0 = if i < n then f i else 0 := by
  rw [List.getD_eq_getElem?_getD, List.getElem?_map]
  by_cases hi : i < n
  · rw [List.getElem?_range hi]; simp [hi]
  · rw [List.getElem?_eq_none (by simpa using hi)]; simp [hi]

/-- Linear pixel index y·w + x of an integer point, as computed by
traceContour before its bounds checks; meaningful when the point is in
bounds. -/
def toIdx (w : ℕ) (q : ℤ × ℤ) : ℕ := (q.2 * w + q.1).toNat

/-- The loop of traceContour (src/smart-scanner.js:252-277): a stack-based
flood fill.  The JS stack is an array popped from the end; it is modelled
as a list whose head is the top, so the eight neighbours pushed for
dy = -1..1, dx = -1..1 (skipping 0,0) appear here in reverse push order.
Out-of-bounds, already-visited and off pixels are discarded; an on pixel
is marked visited, appended to the contour, and its neighbours pushed.
The loop runs while the stack is nonempty and the contour has fewer than
1000 points. -/
def traceContourAux (edges : List ℕ) (w h : ℕ) :
    List (ℤ × ℤ) → Finset ℕ → List (ℤ × ℤ) → Finset ℕ × List (ℤ × ℤ)
  | [], visited, contour => (visited, contour)
  | (x, y) :: rest, visited, contour =>
    if 1000 ≤ contour.length then (visited, contour)
    else if hskip : x < 0 ∨ (w : ℤ) ≤ x ∨ y < 0 ∨ (h : ℤ) ≤ y
        ∨ toIdx w (x, y) ∈ visited ∨ edges.getD (toIdx w (x, y)) 0 = 0 then
      traceContourAux edges w h rest visited contour
    else
      traceContourAux edges w h
        ([(x+1, y+1), (x, y+1), (x-1, y+1), (x+1, y), (x-1, y),
          (x+1, y-1), (x, y-1), (x-1, y-1)] ++ rest)
        (insert (toIdx w (x, y)) visited) (contour ++ [(x, y)])
  termination_by stack visited _ =>
    stack.length + 10 * ((Finset.range (w * h)) \ visited).card
  decreasing_by
  · simp only [List.length_cons]
    omega
  · push_neg at hskip
    obtain ⟨hx0, hxw, hy0, hyh, hnv, _⟩ := hskip
    have hidx : toIdx w (x, y) < w * h := by
      show (y * (w : ℤ) + x).toNat < w * h
      have hyw : (0 : ℤ) ≤ y * (w : ℤ) := mul_nonneg hy0 (by exact_mod_cast Nat.zero_le w)
      have h1 : y * (w : ℤ) + x < (w : ℤ) * (h : ℤ) := by nlinarith
      have hcast : ((w * h : ℕ) : ℤ) = (w : ℤ) * (h : ℤ) := by push_cast; ring
      omega
    have hmem : toIdx w (x, y) ∈ (Finset.range (w * h)) \ visited := by
      simp only [Finset.mem_sdiff, Finset.mem_range]
      exact ⟨hidx, hnv⟩
    have hcard : ((Finset.range (w * h)) \ insert (toIdx w (x, y)) visited).card
        = ((Finset.range (w * h)) \ visited).card - 1 := by
      rw [Finset.sdiff_insert, Finset.card_erase_of_mem hmem]
    have hpos : 1 ≤ ((Finset.range (w * h)) \ visited).card :=
      Finset.card_pos.mpr ⟨_, hmem⟩
    simp only [List.length_append, List.length_cons, List.length_nil]
    omega

/-- The entry point of traceContour: seed the stack with the start point and
an empty contour; returns the updated visited set together with the
collected contour (the source mutates visited in place). -/
def traceContour (edges : List ℕ) (w h : ℕ) (startX startY : ℕ)
    (visited : Finset ℕ) : Finset ℕ × List (ℤ × ℤ) :=
  traceContourAux edges w h [((startX : ℤ), (startY : ℤ))] visited []

/-- A JS Array.prototype.reduce with no initial value: the accumulator
starts from the first element (callers never pass an empty array; the
value at [] is irrelevant junk). -/
def reduce1 (f : ℤ × ℤ → ℤ × ℤ → ℤ × ℤ) : List (ℤ × ℤ) → ℤ × ℤ
  | [] => (0, 0)
  | p :: t => t.foldl f p

/-- Selector of the pivot of convexHull (line 295): keep p when p.y > acc.y,
or p.y = acc.y and p.x < acc.x. -/
def pickStart (m p : ℤ × ℤ) : ℤ × ℤ :=
  if m.2 < p.2 ∨ (p.2 = m.2 ∧ p.1 < m.1) then p else m

/-- Selector for the smallest x+y (topLeft in the source). -/
def pickMinSum (m p : ℤ × ℤ) : ℤ × ℤ := if p.1 + p.2 < m.1 + m.2 then p else m

/-- Selector for the largest x+y (bottomRight in the source). -/
def pickMaxSum (m p : ℤ × ℤ) : ℤ × ℤ := if m.1 + m.2 < p.1 + p.2 then p else m

/-- Selector for the largest x−y (topRight in the source). -/
def pickMaxDiff (m p : ℤ × ℤ) : ℤ × ℤ := if m.1 - m.2 < p.1 - p.2 then p else m

/-- Selector for the smallest x−y (bottomLeft in the source). -/
def pickMinDiff (m p : ℤ × ℤ) : ℤ × ℤ := if p.1 - p.2 < m.1 - m.2 then p else m

/-- crossProduct (src/smart-scanner.js:316-318). -/
def crossProduct (o a b : ℤ × ℤ) : ℤ :=
  (a.1 - o.1) * (b.2 - o.2) - (a.2 - o.2) * (b.1 - o.1)

/-- The Graham-scan pop loop of convexHull (line 307): while the hull has
more than one point and the last two points together with the candidate
make a non-left turn, pop.  The hull is kept in reverse order (head =
most recently pushed). -/
def grahamPop (p : ℤ × ℤ) : List (ℤ × ℤ) → List (ℤ × ℤ)
  | b :: a :: rest => if crossProduct a b p ≤ 0 then grahamPop p (a :: rest) else b :: a :: rest
  | l => l

/-- The pivot of convexHull (line 295): the point of largest y, smallest
x on ties, selected by reduce. -/
def hullPivot (points : List (ℤ × ℤ)) : ℤ × ℤ := reduce1 pickStart points

/-- The polar-angle comparator of the sort in convexHull, around pivot s.  The
source compares atan2(a.y − s.y, a.x − s.x) with atan2(b.y − s.y,
b.x − s.x) ascending; every compared point satisfies y ≤ s.y, with
x > s.x on ties, so both angle values lie in (−π, 0], where the atan2
order coincides with this exact cross-product test. -/
def polarLe (s a b : ℤ × ℤ) : Bool :=
  decide (0 ≤ (a.1 - s.1) * (b.2 - s.2) - (a.2 - s.2) * (b.1 - s.1))

/-- The filtered, angle-sorted points of convexHull (line 298).  The JS
filter `p !== start` compares object identity; contour points are
pairwise distinct pixels, so filtering by value is equivalent. -/
def hullSorted (points : List (ℤ × ℤ)) : List (ℤ × ℤ) :=
  List.mergeSort (points.filter (fun p => p ≠ hullPivot points))
    (polarLe (hullPivot points))

/-- convexHull (src/smart-scanner.js:291-314).  Fewer than 3 points are
returned unchanged; otherwise a Graham sweep over the angle-sorted
points builds the hull (the accumulator keeps the most recent point
first and is reversed at the end to restore the construction order of
the source). -/
def convexHull (points : List (ℤ × ℤ)) : List (ℤ × ℤ) :=
  if points.length < 3 then points
  else ((hullSorted points).foldl (fun acc p => p :: grahamPop p acc)
    [hullPivot points]).reverse

/-- approximateToQuadrilateral (src/smart-scanner.js:320-330): a hull of
at most 4 points is returned as is, otherwise the four extreme points
[topLeft, topRight, bottomRight, bottomLeft] are selected by reduce. -/
def approximateToQuadrilateral (hull : List (ℤ × ℤ)) : List (ℤ × ℤ) :=
  if hull.length ≤ 4 then hull
  else [reduce1 pickMinSum hull, reduce1 pickMaxDiff hull,
        reduce1 pickMaxSum hull, reduce1 pickMinDiff hull]

/-- findRectangleCorners (src/smart-scanner.js:279-289); the source
binds hull = convexHull(contour) once, inlined here. -/
def findRectangleCorners (contour : List (ℤ × ℤ)) : Option (List (ℤ × ℤ)) :=
  if contour.length < 4 then none
  else if (convexHull contour).length < 4 then none
  else some (approximateToQuadrilateral (convexHull contour))

/-- The cyclic shoelace sum of calculatePolygonArea: Σ xᵢyⱼ − xⱼyᵢ over
consecutive pairs, j = (i+1) mod n, obtained by zipping the list with its
rotation by one. -/
def shoelaceSum (ps : List (ℤ × ℤ)) : ℤ :=
  ((ps.zip (ps.rotate 1)).map fun pq => pq.1.1 * pq.2.2 - pq.2.1 * pq.1.2).sum

/-- calculatePolygonArea (src/smart-scanner.js:332-342): |shoelace|/2,
and 0 for fewer than 3 points. -/
def calculatePolygonArea (ps : List (ℤ × ℤ)) : ℚ :=
  if ps.length < 3 then 0 else ((|shoelaceSum ps| : ℤ) : ℚ) / 2

/-- Squared length of the edge vector p − q, i.e. mag² in
calculateAngle. -/
def sqDist (p q : ℤ × ℤ) : ℤ := (p.1 - q.1) ^ 2 + (p.2 - q.2) ^ 2

/-- Dot product of the two edge vectors p1 − p2 and p3 − p2 of
calculateAngle. -/
def dotAt (p1 p2 p3 : ℤ × ℤ) : ℤ :=
  (p1.1 - p2.1) * (p3.1 - p2.1) + (p1.2 - p2.2) * (p3.2 - p2.2)

/-- The per-vertex test of isValidRectangle.  The source (calculateAngle,
lines 362-372) computes cos = dot/(mag1·mag2), clamps it to [−1,1], takes
angle = acos(·)·180/π, and line 359 accepts when |angle − 90| < 30.  Over
exact arithmetic this is equivalent to: both magnitudes nonzero (a zero
edge vector forces dot = 0, so cos = 0/0 = NaN in JS; Math.min/Math.max
pass NaN through, acos(NaN) = NaN, and the comparison |NaN − 90| < 30 is
false) together with −1/2 < cos < 1/2, i.e. 4·dot² < mag1²·mag2²; the
[−1,1] clamp never alters a real quotient by Cauchy–Schwarz.  The
equivalence with the arccos form is proved below against
specAngleDeviation. -/
def angleWithinTol (p1 p2 p3 : ℤ × ℤ) : Bool :=
  decide (sqDist p1 p2 ≠ 0) && decide (sqDist p3 p2 ≠ 0) &&
    decide (4 * dotAt p1 p2 p3 ^ 2 < sqDist p1 p2 * sqDist p3 p2)

/-- isValidRectangle (src/smart-scanner.js:344-360): requires exactly 4
corners and checks the angle at each vertex p_{i+1} formed with p_i and
p_{i+2} (indices mod 4). -/
def isValidRectangle : List (ℤ × ℤ) → Bool
  | [p0, p1, p2, p3] =>
    angleWithinTol p0 p1 p2 && angleWithinTol p1 p2 p3 &&
      angleWithinTol p2 p3 p0 && angleWithinTol p3 p0 p1
  | _ => false

/-- The minimum-area bound of findDocumentRectangles: (w·h)·0.1. -/
def minAreaQ (w h : ℕ) : ℚ := ((w * h : ℕ) : ℚ) * (1/10)

/-- The maximum-area bound of findDocumentRectangles: (w·h)·0.8. -/
def maxAreaQ (w h : ℕ) : ℚ := ((w * h : ℕ) : ℚ) * (8/10)

/-- The acceptance test applied to a candidate at line 237:
area > minArea, area < maxArea, and isValidRectangle. -/
def rectangleAccepted (w h : ℕ) (corners : List (ℤ × ℤ)) : Bool :=
  decide (minAreaQ w h < calculatePolygonArea corners) &&
    decide (calculatePolygonArea corners < maxAreaQ w h) &&
    isValidRectangle corners

/-- The seed coordinates of findDocumentRectangles along one axis:
10, 15, 20, ... while below dim − 10 (`for (v = 10; v < dim - 10; v += 5)`).
The count (dim − 16)/5 (truncated subtraction and division) is exactly
the number of loop iterations. -/
def seedCoords (dim : ℕ) : List ℕ := List.range' 10 ((dim - 16) / 5) 5

/-- The seed points in loop order: y is the outer loop, x the inner. -/
def seedPairs (w h : ℕ) : List (ℕ × ℕ) :=
  (seedCoords h).flatMap fun y => (seedCoords w).map fun x => (x, y)

/-- The body of findDocumentRectangles for one seed: when the seed pixel
is on and unvisited, trace its contour (threading the global visited
set), and when the contour has more than 50 points, fit corners and push
them when there are exactly 4 and they pass the area window and
isValidRectangle. -/
def scanStep (edges : List ℕ) (w h : ℕ)
    (acc : Finset ℕ × List (List (ℤ × ℤ))) (xy : ℕ × ℕ) :
    Finset ℕ × List (List (ℤ × ℤ)) :=
  let idx := xy.2 * w + xy.1
  if 0 < edges.getD idx 0 ∧ idx ∉ acc.1 then
    let r := traceContourAux edges w h [((xy.1 : ℤ), (xy.2 : ℤ))] acc.1 []
    if 50 < r.2.length then
      match findRectangleCorners r.2 with
      | some corners =>
        if corners.length = 4 ∧ rectangleAccepted w h corners = true then
          (r.1, acc.2 ++ [corners])
        else (r.1, acc.2)
      | none => (r.1, acc.2)
    else (r.1, acc.2)
  else acc

/-- findDocumentRectangles (src/smart-scanner.js:216-250): scan the seed
grid with a shared visited set, collect accepted rectangles in discovery
order, then sort them by descending area (the JS comparator
area(b) − area(a); half-integer areas compare exactly). -/
def findDocumentRectangles (edges : List ℕ) (w h : ℕ) : List (List (ℤ × ℤ)) :=
  let pass := (seedPairs w h).foldl (scanStep edges w h) (∅, [])
  List.mergeSort pass.2
    (fun a b => decide (calculatePolygonArea b ≤ calculatePolygonArea a))

/-- detectDocumentEdges (src/smart-scanner.js:135-151): grayscale, blur,
Sobel, rectangle search; the first (largest) rectangle or none. -/
def detectDocumentEdges (data : List ℕ) (w h : ℕ) : Option (List (ℤ × ℤ)) :=
  let gray := convertToGrayscale data w h
  let blurred := gaussianBlur gray w h
  let edges := sobelEdgeDetection blurred w h
  (findDocumentRectangles edges w h).head?

/-- A pixel buffer with its dimensions (the canvas/ImageData pair of the
source). -/
structure Buffer where
  width : ℕ
  height : ℕ
  data : List ℕ

/-- The A4 width/height ratio 210/297 (the aspectRatio
constant of the source). -/
def a4Aspect : ℚ := 210 / 297

/-- The fixed output width 800 of cropAndCorrectDocument and
smartCrop. -/
def outputWidth : ℕ := 800

/-- The JS variable outputHeight = outputWidth / aspectRatio, a
non-integer rational (≈ 1131.43). -/
def outputHeightQ : ℚ := (outputWidth : ℚ) / a4Aspect

/-- The pixel height of the output canvas: assigning the non-integer
outputHeight to canvas.height (and passing it to createImageData) goes
through the WebIDL unsigned long conversion, which truncates toward
zero. -/
def outputHeightPx : ℕ := (⌊outputHeightQ⌋).toNat

/-- sortCornersForPerspective (src/smart-scanner.js:532-540): reorder the
4 corners to [topLeft, topRight, bottomRight, bottomLeft] by the
min/max of x+y and x−y. -/
def sortCornersForPerspective (corners : List (ℤ × ℤ)) : List (ℤ × ℤ) :=
  [reduce1 pickMinSum corners, reduce1 pickMaxDiff corners,
   reduce1 pickMaxSum corners, reduce1 pickMinDiff corners]

/-- The source x-coordinate that destination pixel (x,y) of
applyPerspectiveCorrection samples: Math.round of the bilinear corner
blend with u = x/destWidth and v = y/destHeight, where destHeight is the
non-integer outputHeight value passed by cropAndCorrectDocument. -/
def sourceMapX (sc : List (ℤ × ℤ)) (x y : ℕ) : ℤ :=
  let u : ℚ := (x : ℚ) / (outputWidth : ℚ)
  let v : ℚ := (y : ℚ) / outputHeightQ
  jsRound ((sc.getD 0 (0, 0)).1 * (1 - u) * (1 - v) + (sc.getD 1 (0, 0)).1 * u * (1 - v)
    + (sc.getD 2 (0, 0)).1 * u * v + (sc.getD 3 (0, 0)).1 * (1 - u) * v)

/-- The source y-coordinate sampled by destination pixel (x,y), in the
same way as sourceMapX. -/
def sourceMapY (sc : List (ℤ × ℤ)) (x y : ℕ) : ℤ :=
  let u : ℚ := (x : ℚ) / (outputWidth : ℚ)
  let v : ℚ := (y : ℚ) / outputHeightQ
  jsRound ((sc.getD 0 (0, 0)).2 * (1 - u) * (1 - v) + (sc.getD 1 (0, 0)).2 * u * (1 - v)
    + (sc.getD 2 (0, 0)).2 * u * v + (sc.getD 3 (0, 0)).2 * (1 - u) * v)

/-- applyPerspectiveCorrection (src/smart-scanner.js:485-530) before the
final enhancement: each destination pixel copies the RGB bytes of its
mapped source pixel (alpha forced to 255) when that pixel is inside the
source frame, and keeps the createImageData default 0 otherwise.  The JS
loop also runs one row past the integer canvas height because destHeight
is the non-integer outputHeight, but those typed-array writes are out of
bounds and silently dropped, so the buffer is exactly
outputWidth × outputHeightPx. -/
def applyPerspectiveCorrection (frame : Buffer) (corners : List (ℤ × ℤ)) : List ℕ :=
  let sc := sortCornersForPerspective corners
  (List.range (4 * (outputWidth * outputHeightPx))).map fun k =>
    let pix := k / 4
    let ch := k % 4
    let x := pix % outputWidth
    let y := pix / outputWidth
    let sx := sourceMapX sc x y
    let sy := sourceMapY sc x y
    if 0 ≤ sx ∧ sx < (frame.width : ℤ) ∧ 0 ≤ sy ∧ sy < (frame.height : ℤ) then
      if ch = 3 then 255
      else frame.data.getD ((sy.toNat * frame.width + sx.toNat) * 4 + ch) 0
    else 0

/-- The per-channel map of enhanceDocument:
clamp(0,255, (v − 128)·contrast + 128 + brightness) through Math.min and
Math.max, stored via the Uint8ClampedArray conversion. -/
def enhanceChannel (contrast brightness : ℚ) (v : ℕ) : ℕ :=
  clampU8 (min 255 (max 0 (((v : ℚ) - 128) * contrast + 128 + brightness)))

/-- Modelled from the spec: sections 4.10 and 6 expose contrast and
brightness as parameters of the tone enhancer (with defaults 1.3 and
15), while the source function enhanceDocument hard-codes those
constants around the identical per-channel formula.  The in-place loop
over the RGBA bytes (alpha untouched) is modelled as an index map. -/
def enhance (contrast brightness : ℚ) (data : List ℕ) : List ℕ :=
  (List.range data.length).map fun i =>
    if i % 4 = 3 then data.getD i 0 else enhanceChannel contrast brightness (data.getD i 0)

/-- enhanceDocument (src/smart-scanner.js:572-588), with its hard-coded
contrast 1.3 and brightness 15. -/
def enhanceDocument (data : List ℕ) : List ℕ := enhance (13/10) 15 data

/-- cropAndCorrectDocument (src/smart-scanner.js:467-483): an
800 × outputHeightPx canvas filled by applyPerspectiveCorrection and then
enhanced in place. -/
def cropAndCorrectDocument (frame : Buffer) (corners : List (ℤ × ℤ)) : Buffer :=
  ⟨outputWidth, outputHeightPx, enhanceDocument (applyPerspectiveCorrection frame corners)⟩

/-- smartCrop (src/smart-scanner.js:542-570): the deterministic fallback.
The crop geometry (a centered region of width cropHeight·aspect and
height cropHeight, with a 10% margin) follows the source exactly; the
pixel transfer uses canvas drawImage, whose resampling filter is
platform-defined and is modelled here as nearest sampling (the claims
about this path constrain only the output dimensions); the enhancement
is then applied as in the source. -/
def smartCrop (frame : Buffer) : Buffer :=
  let cropWidth : ℚ := (frame.width : ℚ) * (8/10)
  let cropHeight : ℚ := min (cropWidth / a4Aspect) ((frame.height : ℚ) * (8/10))
  let finalWidth : ℚ := cropHeight * a4Aspect
  let startX : ℚ := ((frame.width : ℚ) - finalWidth) / 2
  let startY : ℚ := ((frame.height : ℚ) - cropHeight) / 2
  ⟨outputWidth, outputHeightPx,
    enhanceDocument ((List.range (4 * (outputWidth * outputHeightPx))).map fun k =>
      let pix := k / 4
      let ch := k % 4
      let x := pix % outputWidth
      let y := pix / outputWidth
      if ch = 3 then 255
      else
        let sx := ⌊startX + x * finalWidth / outputWidth⌋
        let sy := ⌊startY + y * cropHeight / outputHeightPx⌋
        if 0 ≤ sx ∧ sx < (frame.width : ℤ) ∧ 0 ≤ sy ∧ sy < (frame.height : ℤ) then
          frame.data.getD ((sy.toNat * frame.width + sx.toNat) * 4 + ch) 0
        else 0)⟩

/-- The capture-time rectification entry point (captureDocument,
src/smart-scanner.js:440-448): cropAndCorrectDocument when a detection
is available, smartCrop otherwise. -/
def rectify (frame : Buffer) (quad : Option (List (ℤ × ℤ))) : Buffer :=
  match quad with
  | some corners => cropAndCorrectDocument frame corners
  | none => smartCrop frame

/-- The 3×3 Gaussian kernel as the spec lists it:
[1,2,1,2,4,2,1,2,1]. -/
def gaussKernel : List ℕ := [1, 2, 1, 2, 4, 2, 1, 2, 1]

/-- The 3×3 neighbourhood of pixel (x,y) in row-major (ky,kx) order, the
order in which the convolution of the spec consumes it. -/
def neighborhood (data : List ℕ) (w x y : ℕ) : List ℕ :=
  [gRead data w (x-1) (y-1), gRead data w x (y-1), gRead data w (x+1) (y-1),
   gRead data w (x-1) y, gRead data w x y, gRead data w (x+1) y,
   gRead data w (x-1) (y+1), gRead data w x (y+1), gRead data w (x+1) (y+1)]

/-- The statement the spec gives of the smoothing convolution at one pixel: the
kernel zipped against the neighbourhood and summed (to be divided by
16). -/
def specKernelConv (data : List ℕ) (w x y : ℕ) : ℕ :=
  (List.zipWith (fun a b => a * b) gaussKernel (neighborhood data w x y)).sum

/-- The per-vertex angle condition of the spec, stated with the
dot-product/arccos formula of the source (including its [−1,1] clamp):
the interior angle at p2 deviates from 90° by more than 30°. -/
def specAngleDeviation (p1 p2 p3 : ℤ × ℤ) : Prop :=
  30 < |Real.arccos (max (-1) (min 1
      ((dotAt p1 p2 p3 : ℝ) / (Real.sqrt (sqDist p1 p2) * Real.sqrt (sqDist p3 p2)))))
    * 180 / Real.pi - 90|

/-- The rejection condition exactly as claim C2 words it: shoelace area
outside the closed interval [10%, 80%] of the image area, or some
interior angle deviating from 90° by more than 30°. -/
def specRejectsClaimed (w h : ℕ) (p0 p1 p2 p3 : ℤ × ℤ) : Prop :=
  calculatePolygonArea [p0, p1, p2, p3] < ((w : ℚ) * h) / 10 ∨
  8 * ((w : ℚ) * h) / 10 < calculatePolygonArea [p0, p1, p2, p3] ∨
  specAngleDeviation p0 p1 p2 ∨ specAngleDeviation p1 p2 p3 ∨
  specAngleDeviation p2 p3 p0 ∨ specAngleDeviation p3 p0 p1

/-- The amended rejection condition: area at most 10% or at least 80% of
the image area (the thresholds themselves are rejected), or some
interior angle deviating from 90° by more than 30°. -/
def specRejectsAmended (w h : ℕ) (p0 p1 p2 p3 : ℤ × ℤ) : Prop :=
  calculatePolygonArea [p0, p1, p2, p3] ≤ ((w : ℚ) * h) / 10 ∨
  8 * ((w : ℚ) * h) / 10 ≤ calculatePolygonArea [p0, p1, p2, p3] ∨
  specAngleDeviation p0 p1 p2 ∨ specAngleDeviation p1 p2 p3 ∨
  specAngleDeviation p2 p3 p0 ∨ specAngleDeviation p3 p0 p1

/-- Strict containment of an integer point in the w × h pixel grid. -/
def ptInBounds (w h : ℕ) (q : ℤ × ℤ) : Bool :=
  decide (0 ≤ q.1) && decide (q.1 < (w : ℤ)) && decide (0 ≤ q.2) && decide (q.2 < (h : ℤ))

/-- Every corner of a detection result (when there is one) has exactly 4
points, all strictly inside the image bounds. -/
def detectedQuadOk (w h : ℕ) : Option (List (ℤ × ℤ)) → Bool
  | none => true
  | some q => (q.length == 4) && q.all (ptInBounds w h)

/-- The cosine quotient fed to Math.acos is NaN precisely when
mag1·mag2 = 0: the zero edge vector forces dot = 0, hence
cos = 0/0 = NaN, and Math.min(1, NaN) and Math.max(−1, NaN) both return
NaN, so the clamp does not restore a value in [−1, 1]. -/
def cosArgIsNaN (p1 p2 p3 : ℤ × ℤ) : Bool :=
  decide (sqDist p1 p2 * sqDist p3 p2 = 0)

theorem sqDist_nonneg (p q : ℤ × ℤ) : 0 ≤ sqDist p q := by
  unfold sqDist; positivity

theorem sqDist_eq_zero_iff (p q : ℤ × ℤ) : sqDist p q = 0 ↔ p = q := by
  rcases p with ⟨a, b⟩
  rcases q with ⟨c, d⟩
  unfold sqDist
  constructor
  · intro hz
    have h1 : a - c = 0 := by nlinarith [sq_nonneg (a - c), sq_nonneg (b - d)]
    have h2 : b - d = 0 := by nlinarith [sq_nonneg (a - c), sq_nonneg (b - d)]
    simp only [Prod.mk.injEq]
    omega
  · intro hz
    simp only [Prod.mk.injEq] at hz
    obtain ⟨h1, h2⟩ := hz
    subst h1; subst h2; ring

theorem dot_sq_le (p1 p2 p3 : ℤ × ℤ) :
    dotAt p1 p2 p3 ^ 2 ≤ sqDist p1 p2 * sqDist p3 p2 := by
  unfold dotAt sqDist
  nlinarith [sq_nonneg ((p1.1 - p2.1) * (p3.2 - p2.2) - (p1.2 - p2.2) * (p3.1 - p2.1))]

/-- On integer points, 4·dot² never equals mag1²·mag2² for nonzero edge
vectors: by the Lagrange identity the equality would force
3·dot² = cross², which would make √3 rational. -/
theorem four_dot_sq_ne (p1 p2 p3 : ℤ × ℤ)
    (h1 : sqDist p1 p2 ≠ 0) (h2 : sqDist p3 p2 ≠ 0) :
    4 * dotAt p1 p2 p3 ^ 2 ≠ sqDist p1 p2 * sqDist p3 p2 := by
  intro heq
  set a := p1.1 - p2.1
  set b := p1.2 - p2.2
  set c := p3.1 - p2.1
  set d := p3.2 - p2.2
  have hdot : dotAt p1 p2 p3 = a * c + b * d := rfl
  have hcrossing : sqDist p1 p2 * sqDist p3 p2
      = (a * c + b * d) ^ 2 + (a * d - b * c) ^ 2 := by
    unfold sqDist; ring
  set D := a * c + b * d with hDdef
  set X := a * d - b * c with hXdef
  rw [hdot] at heq
  rw [hcrossing] at heq
  have hkey : 3 * D ^ 2 = X ^ 2 := by linarith
  rcases eq_or_ne D 0 with hD | hD
  · rw [hD] at hkey
    have hX : X = 0 := by nlinarith
    have : sqDist p1 p2 * sqDist p3 p2 = 0 := by
      rw [hcrossing, hD, hX]; ring
    exact (mul_ne_zero h1 h2) this
  · have hirr : Irrational (Real.sqrt 3) := by
      have h3 : Nat.Prime 3 := by norm_num
      have := h3.irrational_sqrt
      simpa using this
    have hDR : ((D : ℝ)) ≠ 0 := by exact_mod_cast hD
    have hq2 : (((X : ℚ) / (D : ℚ) : ℚ) : ℝ) ^ 2 = 3 := by
      push_cast
      rw [div_pow]
      rw [div_eq_iff (by positivity : ((D : ℝ)) ^ 2 ≠ 0)]
      exact_mod_cast hkey.symm
    have hsq : Real.sqrt 3 = |(((X : ℚ) / (D : ℚ) : ℚ) : ℝ)| := by
      rw [← hq2, Real.sqrt_sq_eq_abs]
    have : Real.sqrt 3 = ((|((X : ℚ) / (D : ℚ))| : ℚ) : ℝ) := by
      rw [hsq]; exact_mod_cast rfl
    exact hirr ⟨|((X : ℚ) / (D : ℚ))|, this.symm⟩

/-- The arccos form of the angle condition of the spec is, for nonzero edge
vectors, the exact rational inequality used in angleWithinTol. -/
theorem specAngleDeviation_iff (p1 p2 p3 : ℤ × ℤ)
    (h1 : sqDist p1 p2 ≠ 0) (h2 : sqDist p3 p2 ≠ 0) :
    specAngleDeviation p1 p2 p3 ↔
      sqDist p1 p2 * sqDist p3 p2 < 4 * dotAt p1 p2 p3 ^ 2 := by
  unfold specAngleDeviation
  set s1 : ℝ := ((sqDist p1 p2 : ℤ) : ℝ) with hs1
  set s2 : ℝ := ((sqDist p3 p2 : ℤ) : ℝ) with hs2
  set D : ℝ := ((dotAt p1 p2 p3 : ℤ) : ℝ) with hD
  have hs1p : 0 < s1 := by
    have hge := sqDist_nonneg p1 p2
    have hlt : (0 : ℤ) < sqDist p1 p2 := lt_of_le_of_ne hge (Ne.symm h1)
    rw [hs1]
    exact_mod_cast hlt
  have hs2p : 0 < s2 := by
    have hge := sqDist_nonneg p3 p2
    have hlt : (0 : ℤ) < sqDist p3 p2 := lt_of_le_of_ne hge (Ne.symm h2)
    rw [hs2]
    exact_mod_cast hlt
  set c : ℝ := D / (Real.sqrt s1 * Real.sqrt s2) with hc
  have hcs : D ^ 2 ≤ s1 * s2 := by
    rw [hD, hs1, hs2]
    exact_mod_cast dot_sq_le p1 p2 p3
  have hc2 : c ^ 2 = D ^ 2 / (s1 * s2) := by
    rw [hc, div_pow, mul_pow, Real.sq_sqrt hs1p.le, Real.sq_sqrt hs2p.le]
  have hc1 : |c| ≤ 1 := by
    apply (sq_le_one_iff_abs_le_one c).mp
    rw [hc2]
    exact (div_le_one (by positivity)).mpr hcs
  have hcl : -1 ≤ c := (abs_le.mp hc1).1
  have hcr : c ≤ 1 := (abs_le.mp hc1).2
  have hclamp : max (-1) (min 1 c) = c := by
    rw [min_eq_right hcr, max_eq_right hcl]
  rw [hclamp]
  set A := Real.arccos c with hA
  have hpi : (0 : ℝ) < Real.pi := Real.pi_pos
  have hmemA : A ∈ Set.Icc (0 : ℝ) Real.pi :=
    ⟨Real.arccos_nonneg c, Real.arccos_le_pi c⟩
  have hcosA : Real.cos A = c := Real.cos_arccos hcl hcr
  have hpi3mem : Real.pi / 3 ∈ Set.Icc (0 : ℝ) Real.pi :=
    ⟨by positivity, by linarith⟩
  have h2pi3mem : Real.pi * (2 / 3) ∈ Set.Icc (0 : ℝ) Real.pi :=
    ⟨by positivity, by linarith⟩
  have hcos2pi3 : Real.cos (Real.pi * (2 / 3)) = -(1 / 2) := by
    have hrw : Real.pi * (2 / 3) = Real.pi - Real.pi / 3 := by ring
    rw [hrw, Real.cos_pi_sub, Real.cos_pi_div_three]
  have step1 : (30 < |A * 180 / Real.pi - 90|) ↔
      (A * 180 / Real.pi < 60 ∨ 120 < A * 180 / Real.pi) := by
    rw [lt_abs]
    constructor
    · rintro (hx | hx)
      · right; linarith
      · left; linarith
    · rintro (hx | hx)
      · right; linarith
      · left; linarith
  have step2 : (A * 180 / Real.pi < 60) ↔ A < Real.pi / 3 := by
    rw [div_lt_iff hpi]
    constructor <;> intro hx <;> linarith
  have step3 : (120 < A * 180 / Real.pi) ↔ Real.pi * (2 / 3) < A := by
    rw [lt_div_iff hpi]
    constructor <;> intro hx <;> linarith
  have step4 : (A < Real.pi / 3) ↔ (1 / 2 : ℝ) < c := by
    constructor
    · intro hx
      have hlt := Real.strictAntiOn_cos hmemA hpi3mem hx
      rw [hcosA, Real.cos_pi_div_three] at hlt
      exact hlt
    · intro hx
      by_contra hcon
      push_neg at hcon
      rcases eq_or_lt_of_le hcon with heq | hlt
      · rw [← heq, Real.cos_pi_div_three] at hcosA
        linarith
      · have := Real.strictAntiOn_cos hpi3mem hmemA hlt
        rw [hcosA, Real.cos_pi_div_three] at this
        linarith
  have step5 : (Real.pi * (2 / 3) < A) ↔ c < -(1 / 2) := by
    constructor
    · intro hx
      have hlt := Real.strictAntiOn_cos h2pi3mem hmemA hx
      rw [hcosA, hcos2pi3] at hlt
      exact hlt
    · intro hx
      by_contra hcon
      push_neg at hcon
      rcases eq_or_lt_of_le hcon with heq | hlt
      · rw [heq, hcos2pi3] at hcosA
        linarith
      · have := Real.strictAntiOn_cos hmemA h2pi3mem hlt
        rw [hcosA, hcos2pi3] at this
        linarith
  have step6 : ((1 / 2 : ℝ) < c ∨ c < -(1 / 2)) ↔ (1 / 4 : ℝ) < c ^ 2 := by
    constructor
    · rintro (hx | hx) <;> nlinarith
    · intro hx
      by_contra hcon
      push_neg at hcon
      obtain ⟨ha, hb⟩ := hcon
      nlinarith
  have step7 : ((1 / 4 : ℝ) < c ^ 2) ↔ s1 * s2 < 4 * D ^ 2 := by
    rw [hc2, lt_div_iff (by positivity : (0 : ℝ) < s1 * s2)]
    constructor <;> intro hx <;> nlinarith
  rw [step1, step2, step3, step4, step5, step6, step7, hs1, hs2, hD]
  constructor <;> intro hx <;> exact_mod_cast hx

theorem bool_true_iff_not {b : Bool} {p : Prop} (h : b = false ↔ p) : b = true ↔ ¬ p := by
  cases b <;> simp_all

/-- For nonzero edge vectors the vertex test fails exactly when the
arccos-form deviation of the spec exceeds 30°; on integer points the
borderline (a deviation of exactly 30°) cannot occur. -/
theorem angleWithinTol_false_iff (p1 p2 p3 : ℤ × ℤ)
    (h1 : sqDist p1 p2 ≠ 0) (h2 : sqDist p3 p2 ≠ 0) :
    angleWithinTol p1 p2 p3 = false ↔ specAngleDeviation p1 p2 p3 := by
  rw [specAngleDeviation_iff p1 p2 p3 h1 h2]
  have hred : angleWithinTol p1 p2 p3
      = decide (4 * dotAt p1 p2 p3 ^ 2 < sqDist p1 p2 * sqDist p3 p2) := by
    simp [angleWithinTol, h1, h2]
  rw [hred, decide_eq_false_iff_not]
  constructor
  · intro hnlt
    exact lt_of_le_of_ne (not_lt.mp hnlt) (Ne.symm (four_dot_sq_ne p1 p2 p3 h1 h2))
  · intro hlt
    exact not_lt.mpr hlt.le

theorem specAngleDeviation_false_of_dot_zero (p1 p2 p3 : ℤ × ℤ)
    (hd : dotAt p1 p2 p3 = 0) : ¬ specAngleDeviation p1 p2 p3 := by
  unfold specAngleDeviation
  rw [hd]
  simp only [Int.cast_zero, zero_div]
  have hmin : min (1 : ℝ) 0 = 0 := by norm_num
  have hmax : max (-1 : ℝ) 0 = 0 := by norm_num
  rw [hmin, hmax, Real.arccos_zero]
  have h90 : Real.pi / 2 * 180 / Real.pi = 90 := by
    field_simp
    ring
  rw [h90]
  norm_num

/-- Claim C2 as stated is false: an axis-aligned 8×5 rectangle in a
20×20 image has shoelace area exactly 10% of the image area and all four
interior angles exactly 90°; the condition of the claim (area outside the
closed interval, or an angle off by more than 30°) does not hold, yet
the validator rejects, because the source compares the area window
strictly. -/
theorem c2_counterexample :
    rectangleAccepted 20 20 [(0, 0), (8, 0), (8, 5), (0, 5)] = false ∧
    ¬ specRejectsClaimed 20 20 (0, 0) (8, 0) (8, 5) (0, 5) := by
  have hs : shoelaceSum [((0 : ℤ), (0 : ℤ)), (8, 0), (8, 5), (0, 5)] = 80 := by rfl
  have hlen : ¬ (([((0 : ℤ), (0 : ℤ)), (8, 0), (8, 5), (0, 5)] : List (ℤ × ℤ)).length < 3) := by
    simp
  have harea : calculatePolygonArea [((0 : ℤ), (0 : ℤ)), (8, 0), (8, 5), (0, 5)] = 40 := by
    unfold calculatePolygonArea
    rw [if_neg hlen, hs]
    norm_num
  constructor
  · have hd : decide (minAreaQ 20 20
        < calculatePolygonArea [((0 : ℤ), (0 : ℤ)), (8, 0), (8, 5), (0, 5)]) = false := by
      rw [decide_eq_false_iff_not, harea]
      norm_num [minAreaQ]
    unfold rectangleAccepted
    rw [hd]
    simp
  · intro hcon
    rcases hcon with hx | hx | hx | hx | hx | hx
    · rw [harea] at hx; norm_num at hx
    · rw [harea] at hx; norm_num at hx
    · exact specAngleDeviation_false_of_dot_zero _ _ _ (by decide) hx
    · exact specAngleDeviation_false_of_dot_zero _ _ _ (by decide) hx
    · exact specAngleDeviation_false_of_dot_zero _ _ _ (by decide) hx
    · exact specAngleDeviation_false_of_dot_zero _ _ _ (by decide) hx

/-- C2 (amended): for a quadrilateral with no repeated adjacent corner,
the validator (the area window of findDocumentRectangles together with
isValidRectangle) rejects exactly when the shoelace area is at most 10%
or at least 80% of the image area — the thresholds themselves are
rejected — or some interior angle (dot-product/arccos formula) deviates
from 90° by more than 30°. -/
theorem c2_validator_iff (w h : ℕ) (p0 p1 p2 p3 : ℤ × ℤ)
    (h01 : p0 ≠ p1) (h12 : p1 ≠ p2) (h23 : p2 ≠ p3) (h30 : p3 ≠ p0) :
    rectangleAccepted w h [p0, p1, p2, p3] = false ↔
      specRejectsAmended w h p0 p1 p2 p3 := by
  have hs01 : sqDist p0 p1 ≠ 0 := fun hz => h01 ((sqDist_eq_zero_iff p0 p1).mp hz)
  have hs21 : sqDist p2 p1 ≠ 0 := fun hz => h12.symm ((sqDist_eq_zero_iff p2 p1).mp hz)
  have hs12 : sqDist p1 p2 ≠ 0 := fun hz => h12 ((sqDist_eq_zero_iff p1 p2).mp hz)
  have hs32 : sqDist p3 p2 ≠ 0 := fun hz => h23.symm ((sqDist_eq_zero_iff p3 p2).mp hz)
  have hs23 : sqDist p2 p3 ≠ 0 := fun hz => h23 ((sqDist_eq_zero_iff p2 p3).mp hz)
  have hs03 : sqDist p0 p3 ≠ 0 := fun hz => h30.symm ((sqDist_eq_zero_iff p0 p3).mp hz)
  have hs30 : sqDist p3 p0 ≠ 0 := fun hz => h30 ((sqDist_eq_zero_iff p3 p0).mp hz)
  have hs10 : sqDist p1 p0 ≠ 0 := fun hz => h01.symm ((sqDist_eq_zero_iff p1 p0).mp hz)
  have a0 := bool_true_iff_not (angleWithinTol_false_iff p0 p1 p2 hs01 hs21)
  have a1 := bool_true_iff_not (angleWithinTol_false_iff p1 p2 p3 hs12 hs32)
  have a2 := bool_true_iff_not (angleWithinTol_false_iff p2 p3 p0 hs23 hs03)
  have a3 := bool_true_iff_not (angleWithinTol_false_iff p3 p0 p1 hs30 hs10)
  have hacc : rectangleAccepted w h [p0, p1, p2, p3] = true ↔
      (minAreaQ w h < calculatePolygonArea [p0, p1, p2, p3] ∧
       calculatePolygonArea [p0, p1, p2, p3] < maxAreaQ w h ∧
       ¬ specAngleDeviation p0 p1 p2 ∧ ¬ specAngleDeviation p1 p2 p3 ∧
       ¬ specAngleDeviation p2 p3 p0 ∧ ¬ specAngleDeviation p3 p0 p1) := by
    simp only [rectangleAccepted, isValidRectangle, Bool.and_eq_true,
      decide_eq_true_eq, a0, a1, a2, a3, and_assoc]
  have hminEq : minAreaQ w h = ((w : ℚ) * h) / 10 := by
    unfold minAreaQ; push_cast; ring
  have hmaxEq : maxAreaQ w h = 8 * ((w : ℚ) * h) / 10 := by
    unfold maxAreaQ; push_cast; ring
  have hb : rectangleAccepted w h [p0, p1, p2, p3] = false ↔
      ¬ (rectangleAccepted w h [p0, p1, p2, p3] = true) := by
    cases hx : rectangleAccepted w h [p0, p1, p2, p3] <;> simp
  rw [hb, hacc]
  unfold specRejectsAmended
  rw [← not_lt (a := ((w : ℚ) * h) / 10) (b := calculatePolygonArea [p0, p1, p2, p3])]
  rw [← not_lt (a := calculatePolygonArea [p0, p1, p2, p3]) (b := 8 * ((w : ℚ) * h) / 10)]
  rw [← hminEq, ← hmaxEq]
  constructor
  · intro hn
    by_cases hA : minAreaQ w h < calculatePolygonArea [p0, p1, p2, p3]
    · by_cases hB : calculatePolygonArea [p0, p1, p2, p3] < maxAreaQ w h
      · by_cases hd0 : specAngleDeviation p0 p1 p2
        · exact Or.inr (Or.inr (Or.inl hd0))
        · by_cases hd1 : specAngleDeviation p1 p2 p3
          · exact Or.inr (Or.inr (Or.inr (Or.inl hd1)))
          · by_cases hd2 : specAngleDeviation p2 p3 p0
            · exact Or.inr (Or.inr (Or.inr (Or.inr (Or.inl hd2))))
            · by_cases hd3 : specAngleDeviation p3 p0 p1
              · exact Or.inr (Or.inr (Or.inr (Or.inr (Or.inr hd3))))
              · exact absurd ⟨hA, hB, hd0, hd1, hd2, hd3⟩ hn
      · exact Or.inr (Or.inl hB)
    · exact Or.inl hA
  · rintro (hx | hx | hx | hx | hx | hx) ⟨hA, hB, hd0, hd1, hd2, hd3⟩ <;> contradiction

/-- Witness for c2_validator_iff at a concrete quadrilateral. -/
theorem c2_validator_iff_witness :
    rectangleAccepted 25 25 [((2 : ℤ), (2 : ℤ)), (22, 2), (22, 22), (2, 22)] = false ↔
      specRejectsAmended 25 25 (2, 2) (22, 2) (22, 22) (2, 22) :=
  c2_validator_iff 25 25 (2, 2) (22, 2) (22, 22) (2, 22)
    (by decide) (by decide) (by decide) (by decide)

/-- C9 as stated is false on the code: with a degenerate quadrilateral
whose points coincide, the cosine quotient is 0/0 = NaN and the clamp
passes it through to acos, so a NaN does reach the downstream
angle-tolerance comparison (which then evaluates to false and rejects
without crash). -/
theorem c9_counterexample :
    cosArgIsNaN (5, 7) (5, 7) (5, 7) = true ∧
    dotAt (5, 7) (5, 7) (5, 7) = 0 ∧
    isValidRectangle [(5, 7), (5, 7), (5, 7), (5, 7)] = false := by
  decide

/-- C9 (amended): whenever both adjacent edge vectors are nonzero the
real cosine quotient already lies in [−1, 1] (Cauchy–Schwarz), so the
clamp is the identity and no NaN arises; when an edge vector has zero
magnitude the quotient is NaN, and the vertex test then evaluates to
false — the validator rejects deterministically, with no crash and no
divide-by-zero exception. -/
theorem c9_clamped_cosine (p1 p2 p3 : ℤ × ℤ) :
    (sqDist p1 p2 ≠ 0 → sqDist p3 p2 ≠ 0 →
      |(dotAt p1 p2 p3 : ℝ) /
        (Real.sqrt ((sqDist p1 p2 : ℤ) : ℝ) * Real.sqrt ((sqDist p3 p2 : ℤ) : ℝ))| ≤ 1) ∧
    (sqDist p1 p2 * sqDist p3 p2 = 0 → angleWithinTol p1 p2 p3 = false) := by
  constructor
  · intro h1 h2
    have hs1p : (0 : ℝ) < ((sqDist p1 p2 : ℤ) : ℝ) := by
      exact_mod_cast lt_of_le_of_ne (sqDist_nonneg p1 p2) (Ne.symm h1)
    have hs2p : (0 : ℝ) < ((sqDist p3 p2 : ℤ) : ℝ) := by
      exact_mod_cast lt_of_le_of_ne (sqDist_nonneg p3 p2) (Ne.symm h2)
    have hcs : ((dotAt p1 p2 p3 : ℤ) : ℝ) ^ 2
        ≤ ((sqDist p1 p2 : ℤ) : ℝ) * ((sqDist p3 p2 : ℤ) : ℝ) := by
      exact_mod_cast dot_sq_le p1 p2 p3
    apply (sq_le_one_iff_abs_le_one _).mp
    rw [div_pow, mul_pow, Real.sq_sqrt hs1p.le, Real.sq_sqrt hs2p.le]
    exact (div_le_one (by positivity)).mpr hcs
  · intro h0
    rcases mul_eq_zero.mp h0 with hz | hz
    · simp [angleWithinTol, hz]
    · simp [angleWithinTol, hz]

/-- Witness for c9_clamped_cosine: a right-angle vertex for the
in-range conjunct and a fully degenerate vertex for the NaN conjunct. -/
theorem c9_clamped_cosine_witness :
    (|(dotAt (0, 0) (1, 0) (1, 1) : ℝ) /
        (Real.sqrt ((sqDist (0, 0) (1, 0) : ℤ) : ℝ) *
         Real.sqrt ((sqDist (1, 1) (1, 0) : ℤ) : ℝ))| ≤ 1) ∧
    angleWithinTol (2, 3) (2, 3) (2, 3) = false :=
  ⟨(c9_clamped_cosine (0, 0) (1, 0) (1, 1)).1 (by decide) (by decide),
   (c9_clamped_cosine (2, 3) (2, 3) (2, 3)).2 (by decide)⟩

theorem specKernelConv_eq (data : List ℕ) (w x y : ℕ) :
    specKernelConv data w x y
      = gRead data w (x-1) (y-1) + 2 * gRead data w x (y-1) + gRead data w (x+1) (y-1)
        + 2 * gRead data w (x-1) y + 4 * gRead data w x y + 2 * gRead data w (x+1) y
        + gRead data w (x-1) (y+1) + 2 * gRead data w x (y+1) + gRead data w (x+1) (y+1) := by
  simp only [specKernelConv, neighborhood, gaussKernel, List.zipWith, List.sum_cons,
    List.sum_nil]
  ring

theorem pixel_decode (w x y : ℕ) (hx : x < w) :
    (y * w + x) % w = x ∧ (y * w + x) / w = y := by
  have hw : 0 < w := by omega
  constructor
  · rw [Nat.add_comm, Nat.add_mul_mod_self_right]
    exact Nat.mod_eq_of_lt hx
  · rw [Nat.add_comm, Nat.add_mul_div_right x y hw, Nat.div_eq_of_lt hx]
    omega

/-- Claim C4 as stated is false: on a constant 200-valued 3×3 luminance
buffer the blurred border pixel (0,0) is 0 (the output array is freshly
zero-initialised and the loops never write the border), not the input
value 200. -/
theorem c4_counterexample :
    (gaussianBlur (List.replicate 9 200) 3 3).getD 0 0 = 0 ∧
    (List.replicate 9 (200 : ℕ)).getD 0 0 = 200 ∧ (0 : ℕ) ≠ 200 := by
  refine ⟨?_, by decide, by decide⟩
  rw [show gaussianBlur (List.replicate 9 200) 3 3
      = (List.range (3 * 3)).map (fun idx =>
        let y := idx / 3
        let x := idx % 3
        if 1 ≤ x ∧ x + 1 < 3 ∧ 1 ≤ y ∧ y + 1 < 3 then
          clampU8 (((gRead (List.replicate 9 200) 3 (x-1) (y-1)
            + 2 * gRead (List.replicate 9 200) 3 x (y-1) + gRead (List.replicate 9 200) 3 (x+1) (y-1)
            + 2 * gRead (List.replicate 9 200) 3 (x-1) y + 4 * gRead (List.replicate 9 200) 3 x y
            + 2 * gRead (List.replicate 9 200) 3 (x+1) y
            + gRead (List.replicate 9 200) 3 (x-1) (y+1) + 2 * gRead (List.replicate 9 200) 3 x (y+1)
            + gRead (List.replicate 9 200) 3 (x+1) (y+1) : ℕ) : ℚ) / 16)
        else 0) from rfl]
  rw [getD_rangeMap]
  norm_num

/-- The blur stage at one in-range pixel: the spec-kernel convolution at
interior pixels, the fresh array value 0 on the border ring. -/
theorem gaussianBlur_at (data : List ℕ) (w h x y : ℕ) (hx : x < w) (hy : y < h) :
    (1 ≤ x ∧ x + 1 < w ∧ 1 ≤ y ∧ y + 1 < h →
      (gaussianBlur data w h).getD (y * w + x) 0
        = clampU8 ((specKernelConv data w x y : ℚ) / 16)) ∧
    (¬ (1 ≤ x ∧ x + 1 < w ∧ 1 ≤ y ∧ y + 1 < h) →
      (gaussianBlur data w h).getD (y * w + x) 0 = 0) := by
  have hidx : y * w + x < w * h := by
    calc y * w + x < y * w + w := by omega
    _ = (y + 1) * w := by ring
    _ ≤ h * w := Nat.mul_le_mul_right w hy
    _ = w * h := Nat.mul_comm h w
  have hdec := pixel_decode w x y hx
  unfold gaussianBlur
  rw [getD_rangeMap, if_pos hidx]
  simp only [hdec.1, hdec.2]
  constructor
  · intro hint
    rw [if_pos hint, specKernelConv_eq]
  · intro hint
    rw [if_neg hint]

/-- C4 (amended): at every interior pixel the smoother stores the
[1,2,1,2,4,2,1,2,1]/16 convolution (spec kernel form), and at every
border-ring pixel the output is 0, the fresh Uint8ClampedArray value —
not the input value there. -/
theorem c4_blur (data : List ℕ) (w h x y : ℕ) (hx : x < w) (hy : y < h) :
    (1 ≤ x ∧ x + 1 < w ∧ 1 ≤ y ∧ y + 1 < h →
      (gaussianBlur data w h).getD (y * w + x) 0
        = clampU8 ((specKernelConv data w x y : ℚ) / 16)) ∧
    (¬ (1 ≤ x ∧ x + 1 < w ∧ 1 ≤ y ∧ y + 1 < h) →
      (gaussianBlur data w h).getD (y * w + x) 0 = 0) :=
  gaussianBlur_at data w h x y hx hy

/-- Witness for c4_blur: the interior centre and a border corner of a
3×3 buffer. -/
theorem c4_blur_witness :
    ((gaussianBlur [1, 2, 3, 4, 5, 6, 7, 8, 9] 3 3).getD (1 * 3 + 1) 0
      = clampU8 ((specKernelConv [1, 2, 3, 4, 5, 6, 7, 8, 9] 3 1 1 : ℚ) / 16)) ∧
    ((gaussianBlur [1, 2, 3, 4, 5, 6, 7, 8, 9] 3 3).getD (0 * 3 + 2) 0 = 0) :=
  ⟨(c4_blur [1, 2, 3, 4, 5, 6, 7, 8, 9] 3 3 1 1 (by decide) (by decide)).1 (by decide),
   (c4_blur [1, 2, 3, 4, 5, 6, 7, 8, 9] 3 3 2 0 (by decide) (by decide)).2 (by decide)⟩

theorem enhanceChannel_one_zero (v : ℕ) (hv : v ≤ 255) : enhanceChannel 1 0 v = v := by
  unfold enhanceChannel
  have he : ((v : ℚ) - 128) * 1 + 128 + 0 = (v : ℚ) := by ring
  rw [he]
  have hmax : max (0 : ℚ) (v : ℚ) = (v : ℚ) := max_eq_right (by positivity)
  rw [hmax]
  have hmin : min (255 : ℚ) (v : ℚ) = (v : ℚ) := min_eq_right (by exact_mod_cast hv)
  rw [hmin]
  exact clampU8_natCast v hv

/-- C8: with contrast 1 and brightness 0 the tone enhancer is the
identity on every byte buffer, hence applying it twice is also the
identity. -/
theorem c8_enhance_identity (data : List ℕ) (hv : ∀ v ∈ data, v ≤ 255) :
    enhance 1 0 data = data ∧ enhance 1 0 (enhance 1 0 data) = data := by
  have hone : enhance 1 0 data = data := by
    unfold enhance
    apply List.ext_getElem
    · simp
    · intro i h1 h2
      rw [List.getElem_map, List.getElem_range]
      have hgd : data.getD i 0 = data[i] :=
        List.getD_eq_getElem data 0 (by simpa using h2)
      by_cases hi : i % 4 = 3
      · rw [if_pos hi, hgd]
      · rw [if_neg hi, hgd]
        exact enhanceChannel_one_zero _ (hv _ (List.getElem_mem h2))
  exact ⟨hone, by rw [hone, hone]⟩

/-- Witness for c8_enhance_identity. -/
theorem c8_enhance_identity_witness :
    enhance 1 0 [0, 128, 255, 7] = [0, 128, 255, 7] ∧
    enhance 1 0 (enhance 1 0 [0, 128, 255, 7]) = [0, 128, 255, 7] :=
  c8_enhance_identity [0, 128, 255, 7] (by decide)

theorem enhance_length (c b : ℚ) (l : List ℕ) : (enhance c b l).length = l.length := by
  simp [enhance]

theorem applyPerspectiveCorrection_length (frame : Buffer) (corners : List (ℤ × ℤ)) :
    (applyPerspectiveCorrection frame corners).length = 4 * (outputWidth * outputHeightPx) := by
  simp [applyPerspectiveCorrection]

theorem outputHeightPx_eq : outputHeightPx = 1131 := by
  unfold outputHeightPx outputHeightQ a4Aspect outputWidth
  have hq : ((800 : ℕ) : ℚ) / (210 / 297) = 7920 / 7 := by norm_num
  rw [hq]
  have hfl : ⌊(7920 / 7 : ℚ)⌋ = 1131 := by
    rw [Int.floor_eq_iff]
    norm_num
  rw [hfl]
  rfl

theorem reduce1_all_eq (f : ℤ × ℤ → ℤ × ℤ → ℤ × ℤ) (p : ℤ × ℤ) (hf : f p p = p) :
    reduce1 f [p, p, p, p] = p := by
  simp [reduce1, hf]

theorem sortCorners_degenerate (p : ℤ × ℤ) :
    sortCornersForPerspective [p, p, p, p] = [p, p, p, p] := by
  unfold sortCornersForPerspective
  rw [reduce1_all_eq _ _ (by simp [pickMinSum]),
      reduce1_all_eq _ _ (by simp [pickMaxDiff]),
      reduce1_all_eq _ _ (by simp [pickMaxSum]),
      reduce1_all_eq _ _ (by simp [pickMinDiff])]

/-- C6: calling rectify with a degenerate quadrilateral whose four
points all equal p succeeds (the output buffer is full-size and
well-formed) and the mapped source coordinate of every destination pixel is
exactly p: the bilinear corner weights sum to one, so the blend of four
identical corners is p itself, and Math.round of an integer is that
integer. -/
theorem c6_degenerate_quad (frame : Buffer) (p : ℤ × ℤ) (x y : ℕ) :
    sourceMapX (sortCornersForPerspective [p, p, p, p]) x y = p.1 ∧
    sourceMapY (sortCornersForPerspective [p, p, p, p]) x y = p.2 ∧
    (rectify frame (some [p, p, p, p])).width = outputWidth ∧
    (rectify frame (some [p, p, p, p])).height = outputHeightPx ∧
    (rectify frame (some [p, p, p, p])).data.length
      = 4 * (outputWidth * outputHeightPx) := by
  have hsum : ∀ z : ℤ, ∀ u v : ℚ, (z : ℚ) * (1 - u) * (1 - v) + (z : ℚ) * u * (1 - v)
      + (z : ℚ) * u * v + (z : ℚ) * (1 - u) * v = (z : ℚ) := by
    intro z u v; ring
  refine ⟨?_, ?_, rfl, rfl, ?_⟩
  · rw [sortCorners_degenerate]
    unfold sourceMapX
    simp only [List.getD_cons_zero, List.getD_cons_succ]
    rw [hsum]
    exact jsRound_intCast p.1
  · rw [sortCorners_degenerate]
    unfold sourceMapY
    simp only [List.getD_cons_zero, List.getD_cons_succ]
    rw [hsum]
    exact jsRound_intCast p.2
  · show (enhanceDocument (applyPerspectiveCorrection frame [p, p, p, p])).length = _
    rw [enhanceDocument, enhance_length, applyPerspectiveCorrection_length]

/-- Claim C3 as stated is false: targetWidth/aspectRatio = 800/(210/297)
is not an integer, so no pixel buffer is exactly 800 by that value; the
source truncates it to 1131 rows when assigning canvas.height, on both
the perspective path and the fallback path. -/
theorem c3_counterexample :
    (rectify ⟨0, 0, []⟩ none).height = 1131 ∧
    ((1131 : ℚ) ≠ (800 : ℚ) / (210 / 297)) ∧
    (rectify ⟨0, 0, []⟩ (some [(0, 0), (1, 0), (1, 1), (0, 1)])).height = 1131 := by
  refine ⟨?_, by norm_num, ?_⟩
  · show outputHeightPx = 1131
    exact outputHeightPx_eq
  · show outputHeightPx = 1131
    exact outputHeightPx_eq

/-- The full invariant of the flood-fill loop: relative to any incoming
visited set and any already-collected contour whose points are distinct,
in-bounds, on, and already marked, the loop only appends fresh points
(in-bounds, on, unvisited before the call), marks exactly those points,
keeps the contour free of duplicates, and never exceeds 1000 points. -/
theorem traceContourAux_spec (edges : List ℕ) (w h : ℕ) :
    ∀ (s : List (ℤ × ℤ)) (v : Finset ℕ) (c : List (ℤ × ℤ)),
      (c.map (toIdx w)).Nodup →
      (∀ q ∈ c, 0 ≤ q.1 ∧ q.1 < (w : ℤ) ∧ 0 ≤ q.2 ∧ q.2 < (h : ℤ) ∧
        edges.getD (toIdx w q) 0 ≠ 0 ∧ toIdx w q ∈ v) →
      c.length ≤ 1000 →
      ∃ newPts : List (ℤ × ℤ),
        (traceContourAux edges w h s v c).2 = c ++ newPts ∧
        (traceContourAux edges w h s v c).1 = v ∪ (newPts.map (toIdx w)).toFinset ∧
        ((traceContourAux edges w h s v c).2.map (toIdx w)).Nodup ∧
        (∀ q ∈ newPts, 0 ≤ q.1 ∧ q.1 < (w : ℤ) ∧ 0 ≤ q.2 ∧ q.2 < (h : ℤ) ∧
          edges.getD (toIdx w q) 0 ≠ 0 ∧ toIdx w q ∉ v) ∧
        (traceContourAux edges w h s v c).2.length ≤ 1000 := by
  intro s v c
  induction s, v, c using traceContourAux.induct edges w h with
  | case1 v c =>
    intro h1 h2 h3
    refine ⟨[], ?_, ?_, ?_, ?_, ?_⟩ <;>
      simp [traceContourAux, h1, h3]
  | case2 x y rest v c hcap =>
    intro h1 h2 h3
    have heq : traceContourAux edges w h ((x, y) :: rest) v c = (v, c) := by
      simp only [traceContourAux]
      rw [if_pos hcap]
    refine ⟨[], ?_, ?_, ?_, ?_, ?_⟩ <;> simp [heq, h1, h3]
  | case3 x y rest v c hcap hskip ih =>
    intro h1 h2 h3
    have heq : traceContourAux edges w h ((x, y) :: rest) v c
        = traceContourAux edges w h rest v c := by
      simp only [traceContourAux]
      rw [if_neg hcap, dif_pos hskip]
    rw [heq]
    exact ih h1 h2 h3
  | case4 x y rest v c hcap hskip ih =>
    intro h1 h2 h3
    push_neg at hskip
    obtain ⟨hx0, hxw, hy0, hyh, hnv, hedge⟩ := hskip
    have heq : traceContourAux edges w h ((x, y) :: rest) v c
        = traceContourAux edges w h
            ([(x+1, y+1), (x, y+1), (x-1, y+1), (x+1, y), (x-1, y),
              (x+1, y-1), (x, y-1), (x-1, y-1)] ++ rest)
            (insert (toIdx w (x, y)) v) (c ++ [(x, y)]) := by
      simp only [traceContourAux]
      rw [if_neg hcap, dif_neg]
      push_neg
      exact ⟨hx0, hxw, hy0, hyh, hnv, hedge⟩
    rw [heq]
    have hidxnotc : toIdx w (x, y) ∉ c.map (toIdx w) := by
      intro hmem
      obtain ⟨q, hq, hEq⟩ := List.mem_map.mp hmem
      exact hnv (hEq ▸ (h2 q hq).2.2.2.2.2)
    have ihNodup : ((c ++ [(x, y)]).map (toIdx w)).Nodup := by
      rw [List.map_append]
      refine List.Nodup.append h1 (by simp) ?_
      intro a ha hb
      simp only [List.map_cons, List.map_nil, List.mem_singleton] at hb
      exact hidxnotc (hb ▸ ha)
    have ihProps : ∀ q ∈ c ++ [(x, y)], 0 ≤ q.1 ∧ q.1 < (w : ℤ) ∧ 0 ≤ q.2 ∧ q.2 < (h : ℤ) ∧
        edges.getD (toIdx w q) 0 ≠ 0 ∧ toIdx w q ∈ insert (toIdx w (x, y)) v := by
      intro q hq
      rcases List.mem_append.mp hq with hc | hone
      · obtain ⟨b1, b2, b3, b4, b5, b6⟩ := h2 q hc
        exact ⟨b1, b2, b3, b4, b5, Finset.mem_insert_of_mem b6⟩
      · rw [List.mem_singleton] at hone
        subst hone
        exact ⟨hx0, hxw, hy0, hyh, hedge, Finset.mem_insert_self _ _⟩
    have ihLen : (c ++ [(x, y)]).length ≤ 1000 := by
      rw [List.length_append]
      simp only [List.length_singleton]
      omega
    obtain ⟨nps, e1, e2, e3, e4, e5⟩ := ih ihNodup ihProps ihLen
    refine ⟨(x, y) :: nps, ?_, ?_, e3, ?_, e5⟩
    · rw [e1]
      simp [List.append_assoc]
    · rw [e2]
      simp only [List.map_cons, List.toFinset_cons]
      rw [Finset.insert_union, Finset.union_insert]
    · intro q hq
      rcases List.mem_cons.mp hq with hone | hnp
      · subst hone
        exact ⟨hx0, hxw, hy0, hyh, hedge, hnv⟩
      · obtain ⟨b1, b2, b3, b4, b5, b6⟩ := e4 q hnp
        refine ⟨b1, b2, b3, b4, b5, fun hin => b6 (Finset.mem_insert_of_mem hin)⟩

/-- C5: in one traceContour call with the global visited set of the pass, the
collected contour has at most 1000 points (the cap), its pixels are
pairwise distinct, each collected pixel is in bounds, an on pixel of the
edge mask, and was unvisited before the call, and the visited set grows
by exactly the collected pixels — so across a whole detection pass,
which threads the updated visited set into every subsequent call, no on
pixel is ever collected twice, and the loop (defined by well-founded
recursion on the unvisited count) terminates on every input. -/
theorem c5_traceContour (edges : List ℕ) (w h sx sy : ℕ) (visited : Finset ℕ) :
    (traceContour edges w h sx sy visited).2.length ≤ 1000 ∧
    ((traceContour edges w h sx sy visited).2.map (toIdx w)).Nodup ∧
    (∀ q ∈ (traceContour edges w h sx sy visited).2,
      0 ≤ q.1 ∧ q.1 < (w : ℤ) ∧ 0 ≤ q.2 ∧ q.2 < (h : ℤ) ∧
      edges.getD (toIdx w q) 0 ≠ 0 ∧ toIdx w q ∉ visited) ∧
    (traceContour edges w h sx sy visited).1
      = visited ∪ ((traceContour edges w h sx sy visited).2.map (toIdx w)).toFinset := by
  obtain ⟨newPts, e1, e2, e3, e4, e5⟩ :=
    traceContourAux_spec edges w h [((sx : ℤ), (sy : ℤ))] visited []
      (by simp) (by simp) (by simp)
  rw [List.nil_append] at e1
  unfold traceContour
  refine ⟨e5, e3, ?_, ?_⟩
  · intro q hq
    rw [e1] at hq
    exact e4 q hq
  · rw [e2, e1]

/-- C3 (amended): for every frame and every optional quadrilateral,
rectify succeeds and returns a buffer of exactly
targetWidth × ⌊targetWidth/aspectRatio⌋ = 800 × 1131 pixels with a full
RGBA payload, on both the detected-quadrilateral path and the fallback
center-crop path. -/
theorem c3_rectify_size (frame : Buffer) (quad : Option (List (ℤ × ℤ))) :
    (rectify frame quad).width = 800 ∧ (rectify frame quad).height = 1131 ∧
    (rectify frame quad).data.length = 4 * (800 * 1131) := by
  cases quad with
  | some corners =>
    refine ⟨rfl, outputHeightPx_eq, ?_⟩
    show (enhanceDocument (applyPerspectiveCorrection frame corners)).length = _
    rw [enhanceDocument, enhance_length, applyPerspectiveCorrection_length,
      outputHeightPx_eq]
    rfl
  | none =>
    refine ⟨rfl, outputHeightPx_eq, ?_⟩
    show (smartCrop frame).data.length = _
    simp only [smartCrop, enhanceDocument]
    rw [enhance_length]
    simp [outputHeightPx_eq, outputWidth]

theorem foldl_choice_mem (f : ℤ × ℤ → ℤ × ℤ → ℤ × ℤ)
    (hf : ∀ a b, f a b = a ∨ f a b = b) :
    ∀ (t : List (ℤ × ℤ)) (acc : ℤ × ℤ), t.foldl f acc = acc ∨ t.foldl f acc ∈ t := by
  intro t
  induction t with
  | nil => intro acc; left; rfl
  | cons b t ih =>
    intro acc
    rw [List.foldl_cons]
    rcases ih (f acc b) with he | hm
    · rcases hf acc b with h1 | h1
      · left; rw [he, h1]
      · right; rw [he, h1]; exact List.mem_cons_self b t
    · right; exact List.mem_cons_of_mem b hm

/-- A JS reduce with a selector that always returns one of its two
arguments yields an element of the (nonempty) array. -/
theorem reduce1_mem (f : ℤ × ℤ → ℤ × ℤ → ℤ × ℤ)
    (hf : ∀ a b, f a b = a ∨ f a b = b) (l : List (ℤ × ℤ)) (hne : l ≠ []) :
    reduce1 f l ∈ l := by
  cases l with
  | nil => exact absurd rfl hne
  | cons p t =>
    show t.foldl f p ∈ p :: t
    rcases foldl_choice_mem f hf t p with he | hm
    · rw [he]; exact List.mem_cons_self p t
    · exact List.mem_cons_of_mem p hm

theorem grahamPop_subset (p : ℤ × ℤ) : ∀ (l : List (ℤ × ℤ)), ∀ q ∈ grahamPop p l, q ∈ l
  | [] => by simp [grahamPop]
  | [a] => by simp [grahamPop]
  | b :: a :: rest => by
    intro q hq
    by_cases hc : crossProduct a b p ≤ 0
    · rw [show grahamPop p (b :: a :: rest)
          = if crossProduct a b p ≤ 0 then grahamPop p (a :: rest) else b :: a :: rest
          from rfl, if_pos hc] at hq
      exact List.mem_cons_of_mem b (grahamPop_subset p (a :: rest) q hq)
    · rw [show grahamPop p (b :: a :: rest)
          = if crossProduct a b p ≤ 0 then grahamPop p (a :: rest) else b :: a :: rest
          from rfl, if_neg hc] at hq
      exact hq

theorem hull_foldl_subset (pts : List (ℤ × ℤ)) :
    ∀ (l acc : List (ℤ × ℤ)), (∀ q ∈ acc, q ∈ pts) → (∀ q ∈ l, q ∈ pts) →
      ∀ q ∈ l.foldl (fun acc p => p :: grahamPop p acc) acc, q ∈ pts := by
  intro l
  induction l with
  | nil => intro acc hacc hl q hq; exact hacc q hq
  | cons b t ih =>
    intro acc hacc hl q hq
    rw [List.foldl_cons] at hq
    refine ih (b :: grahamPop b acc) ?_ (fun r hr => hl r (List.mem_cons_of_mem b hr)) q hq
    intro r hr
    rcases List.mem_cons.mp hr with h1 | h1
    · rw [h1]; exact hl b (List.mem_cons_self b t)
    · exact hacc r (grahamPop_subset b acc r h1)

/-- Every hull point is one of the input points. -/
theorem convexHull_subset (pts : List (ℤ × ℤ)) : ∀ q ∈ convexHull pts, q ∈ pts := by
  intro q hq
  unfold convexHull at hq
  by_cases hl : pts.length < 3
  · rw [if_pos hl] at hq; exact hq
  · rw [if_neg hl] at hq
    rw [List.mem_reverse] at hq
    have hne : pts ≠ [] := by
      intro hcon; rw [hcon] at hl; simp at hl
    refine hull_foldl_subset pts (hullSorted pts) [hullPivot pts] ?_ ?_ q hq
    · intro r hr
      rw [List.mem_singleton] at hr
      subst hr
      exact reduce1_mem pickStart
        (fun a b => by unfold pickStart; split_ifs <;> simp) pts hne
    · intro r hr
      unfold hullSorted at hr
      rw [(List.mergeSort_perm _ _).mem_iff] at hr
      exact List.mem_of_mem_filter hr

/-- Every fitted corner is one of the hull points. -/
theorem approximateToQuadrilateral_subset (hull : List (ℤ × ℤ)) (hne : hull ≠ []) :
    ∀ q ∈ approximateToQuadrilateral hull, q ∈ hull := by
  intro q hq
  unfold approximateToQuadrilateral at hq
  by_cases hl : hull.length ≤ 4
  · rw [if_pos hl] at hq; exact hq
  · rw [if_neg hl] at hq
    have h1 := reduce1_mem pickMinSum
      (fun a b => by unfold pickMinSum; split_ifs <;> simp) hull hne
    have h2 := reduce1_mem pickMaxDiff
      (fun a b => by unfold pickMaxDiff; split_ifs <;> simp) hull hne
    have h3 := reduce1_mem pickMaxSum
      (fun a b => by unfold pickMaxSum; split_ifs <;> simp) hull hne
    have h4 := reduce1_mem pickMinDiff
      (fun a b => by unfold pickMinDiff; split_ifs <;> simp) hull hne
    have hmem : q = reduce1 pickMinSum hull ∨ q = reduce1 pickMaxDiff hull ∨
        q = reduce1 pickMaxSum hull ∨ q = reduce1 pickMinDiff hull := by
      simpa using hq
    rcases hmem with hq | hq | hq | hq <;> rw [hq]
    · exact h1
    · exact h2
    · exact h3
    · exact h4

/-- Every fitted corner is one of the traced contour points. -/
theorem findRectangleCorners_subset (contour corners : List (ℤ × ℤ))
    (hfc : findRectangleCorners contour = some corners) :
    ∀ q ∈ corners, q ∈ contour := by
  unfold findRectangleCorners at hfc
  by_cases h1 : contour.length < 4
  · rw [if_pos h1] at hfc; cases hfc
  · rw [if_neg h1] at hfc
    by_cases h2 : (convexHull contour).length < 4
    · rw [if_pos h2] at hfc; cases hfc
    · rw [if_neg h2] at hfc
      have hcs : approximateToQuadrilateral (convexHull contour) = corners :=
        Option.some.inj hfc
      intro q hq
      rw [← hcs] at hq
      have hhne : convexHull contour ≠ [] := by
        intro hcon; rw [hcon] at h2; simp at h2
      exact convexHull_subset contour q
        (approximateToQuadrilateral_subset (convexHull contour) hhne q hq)

/-- One scan step either leaves the rectangle list unchanged, or appends
one 4-corner rectangle whose points all lie strictly inside the image
(they come from the bounds-checked flood fill). -/
theorem scanStep_cases (edges : List ℕ) (w h : ℕ)
    (acc : Finset ℕ × List (List (ℤ × ℤ))) (a : ℕ × ℕ) :
    (scanStep edges w h acc a).2 = acc.2 ∨
    ∃ corners, (scanStep edges w h acc a).2 = acc.2 ++ [corners] ∧
      corners.length = 4 ∧
      ∀ q ∈ corners, 0 ≤ q.1 ∧ q.1 < (w : ℤ) ∧ 0 ≤ q.2 ∧ q.2 < (h : ℤ) := by
  simp only [scanStep]
  by_cases h1 : 0 < edges.getD (a.2 * w + a.1) 0 ∧ (a.2 * w + a.1) ∉ acc.1
  · rw [if_pos h1]
    by_cases h2 : 50 <
        (traceContourAux edges w h [((a.1 : ℤ), (a.2 : ℤ))] acc.1 []).2.length
    · rw [if_pos h2]
      split
      · rename_i corners hfc
        by_cases h3 : corners.length = 4 ∧ rectangleAccepted w h corners = true
        · rw [if_pos h3]
          right
          refine ⟨corners, rfl, h3.1, ?_⟩
          intro q hq
          have hsub := findRectangleCorners_subset _ _ hfc q hq
          obtain ⟨nps, e1, _, _, e4, _⟩ :=
            traceContourAux_spec edges w h [((a.1 : ℤ), (a.2 : ℤ))] acc.1 []
              (by simp) (by simp) (by simp)
          rw [List.nil_append] at e1
          rw [e1] at hsub
          obtain ⟨b1, b2, b3, b4, _, _⟩ := e4 q hsub
          exact ⟨b1, b2, b3, b4⟩
        · rw [if_neg h3]; left; rfl
      · left; rfl
    · rw [if_neg h2]; left; rfl
  · rw [if_neg h1]; left; rfl

theorem scan_fold_invariant (edges : List ℕ) (w h : ℕ) :
    ∀ (l : List (ℕ × ℕ)) (acc : Finset ℕ × List (List (ℤ × ℤ))),
      (∀ r ∈ acc.2, r.length = 4 ∧
        ∀ q ∈ r, 0 ≤ q.1 ∧ q.1 < (w : ℤ) ∧ 0 ≤ q.2 ∧ q.2 < (h : ℤ)) →
      ∀ r ∈ (l.foldl (scanStep edges w h) acc).2, r.length = 4 ∧
        ∀ q ∈ r, 0 ≤ q.1 ∧ q.1 < (w : ℤ) ∧ 0 ≤ q.2 ∧ q.2 < (h : ℤ) := by
  intro l
  induction l with
  | nil => intro acc hacc; simpa using hacc
  | cons a t ih =>
    intro acc hacc
    rw [List.foldl_cons]
    apply ih
    intro r hr
    rcases scanStep_cases edges w h acc a with hsame | ⟨cs, heq, hlen, hbnd⟩
    · rw [hsame] at hr; exact hacc r hr
    · rw [heq] at hr
      rcases List.mem_append.mp hr with hold | hnew
      · exact hacc r hold
      · rw [List.mem_singleton] at hnew; subst hnew; exact ⟨hlen, hbnd⟩

/-- C10: whenever detect returns a quadrilateral, it has exactly 4
corner points, each with integer coordinates strictly inside the image
bounds — every corner is selected from pixels collected by the
bounds-checked flood fill. -/
theorem c10_detected_corners (data : List ℕ) (w h : ℕ) :
    detectedQuadOk w h (detectDocumentEdges data w h) = true := by
  unfold detectDocumentEdges
  show detectedQuadOk w h ((findDocumentRectangles (sobelEdgeDetection (gaussianBlur
      (convertToGrayscale data w h) w h) w h) w h).head?) = true
  cases hd : (findDocumentRectangles (sobelEdgeDetection (gaussianBlur
      (convertToGrayscale data w h) w h) w h) w h).head? with
  | none => rfl
  | some q =>
    have hqmem : q ∈ findDocumentRectangles (sobelEdgeDetection (gaussianBlur
        (convertToGrayscale data w h) w h) w h) w h := by
      cases hfd : findDocumentRectangles (sobelEdgeDetection (gaussianBlur
          (convertToGrayscale data w h) w h) w h) w h with
      | nil => rw [hfd] at hd; cases hd
      | cons r t =>
        rw [hfd] at hd
        have : r = q := by
          have := hd
          simp only [List.head?_cons, Option.some.injEq] at this
          exact this
        rw [← this]
        exact List.mem_cons_self r t
    have hrw : findDocumentRectangles (sobelEdgeDetection (gaussianBlur
        (convertToGrayscale data w h) w h) w h) w h
      = List.mergeSort ((seedPairs w h).foldl
          (scanStep (sobelEdgeDetection (gaussianBlur
            (convertToGrayscale data w h) w h) w h) w h) (∅, [])).2
          (fun a b => decide (calculatePolygonArea b ≤ calculatePolygonArea a)) := rfl
    rw [hrw, (List.mergeSort_perm _ _).mem_iff] at hqmem
    have hq := scan_fold_invariant _ w h (seedPairs w h) (∅, []) (by simp) q hqmem
    simp only [detectedQuadOk, Bool.and_eq_true, beq_iff_eq, List.all_eq_true]
    refine ⟨hq.1, ?_⟩
    intro p hp
    obtain ⟨b1, b2, b3, b4⟩ := hq.2 p hp
    simp only [ptInBounds, Bool.and_eq_true, decide_eq_true_eq]
    exact ⟨⟨⟨b1, b2⟩, b3⟩, b4⟩

end Scanner
